import Mathlib

set_option maxHeartbeats 1600000

/-! Shallow embedding of the loro collaborative-text core: the rich-text
container state (`state/richtext_state.rs`), the plain text container
(`container/text/text_container.rs`) and the shared arena (`arena.rs`).
Machine integers are modelled as `Nat`/`Int`; Rust panics are modelled by
`Option` results (`none` = abort). -/

/-- Style operation record (source `StyleOp`: lamport, peer, cnt, key, info).
Keys and info flags are interned as plain numbers. -/
structure StyleOp where
  lamport : Nat
  peer : Nat
  cnt : Nat
  key : Nat
  info : Nat
deriving DecidableEq, Repr

/-- Anchor type of a style chunk (source `AnchorType`: `Start` / `End`). -/
inductive AnchorType where
  | start
  | end_
deriving DecidableEq, Repr

/-- Modelled from the spec: a leaf of the rich-text rope (source
`RichtextStateChunk`, crate module `container::richtext::richtext_state`
which is not part of the given slice). A text chunk is a view into the
string arena, given by its start position and unicode length; a style chunk
is a zero-width anchor carrying a shared `StyleOp`. -/
inductive Chunk where
  | text (start len : Nat)
  | style (op : StyleOp) (anchor : AnchorType)
deriving DecidableEq, Repr

/-- Entity length of a chunk: text counts its unicode length, a style anchor
counts 1 (this is `rle_len` of `RichtextStateChunk`). -/
def entityLen : Chunk → Nat
  | .text _ len => len
  | .style _ _ => 1

/-- Entity length of a whole chunk sequence. -/
def entityLenL (cs : List Chunk) : Nat := (cs.map entityLen).sum

/-- One entity of the rich-text rope: a single codepoint (identified by its
arena position) or a zero-width style anchor. -/
inductive REntity where
  | chr (pos : Nat)
  | anch (op : StyleOp) (anchor : AnchorType)
deriving DecidableEq, Repr

/-- The entities of one chunk, in order. -/
def chunkUnits : Chunk → List REntity
  | .text s len => (List.range len).map (fun j => .chr (s + j))
  | .style op a => [.anch op a]

/-- The entities of a chunk sequence, in order. Two chunk sequences with the
same entities render identically (same text, same length metrics). -/
def unitsOf (cs : List Chunk) : List REntity := cs.flatMap chunkUnits

@[simp]
theorem chunkUnits_length (c : Chunk) : (chunkUnits c).length = entityLen c := by
  cases c <;> simp [chunkUnits, entityLen]

@[simp]
theorem unitsOf_nil : unitsOf [] = [] := rfl

@[simp]
theorem unitsOf_cons (c : Chunk) (cs : List Chunk) :
    unitsOf (c :: cs) = chunkUnits c ++ unitsOf cs := rfl

@[simp]
theorem unitsOf_append (a b : List Chunk) :
    unitsOf (a ++ b) = unitsOf a ++ unitsOf b := by
  simp [unitsOf]

theorem entityLenL_eq_units_length (cs : List Chunk) :
    entityLenL cs = (unitsOf cs).length := by
  induction cs with
  | nil => rfl
  | cons c cs ih => simp [entityLenL, unitsOf] at *; omega

/-- Modelled from the spec: split a chunk sequence at an entity index,
cutting a text chunk in two when the index falls inside it (the generic
B-tree split used by `insert_at_entity_index` / `drain_by_entity_index`). -/
def splitChunks (n : Nat) : List Chunk → List Chunk × List Chunk
  | [] => ([], [])
  | c :: cs =>
    if n = 0 then ([], c :: cs)
    else if entityLen c ≤ n then
      let p := splitChunks (n - entityLen c) cs
      (c :: p.1, p.2)
    else
      match c with
      | .text s len => ([Chunk.text s n], Chunk.text (s + n) (len - n) :: cs)
      | .style op a => ([], Chunk.style op a :: cs)

theorem unitsOf_splitChunks_fst (n : Nat) (cs : List Chunk) :
    unitsOf (splitChunks n cs).1 = (unitsOf cs).take n := by
  induction cs generalizing n with
  | nil => simp [splitChunks]
  | cons c cs ih =>
    by_cases h0 : n = 0
    · simp [splitChunks, h0]
    · by_cases hle : entityLen c ≤ n
      · simp only [splitChunks, if_neg h0, if_pos hle, unitsOf_cons]
        rw [List.take_append_eq_append_take, chunkUnits_length,
          List.take_of_length_le (by simpa using hle), ih]
      · simp only [splitChunks, if_neg h0, if_neg hle]
        match c with
        | .style op a => simp [entityLen] at hle; omega
        | .text s len =>
          simp only [entityLen] at hle
          have hn : n ≤ len := by omega
          simp only [unitsOf_cons, chunkUnits]
          rw [List.take_append_eq_append_take]
          simp [unitsOf, ← List.map_take, List.take_range, Nat.min_eq_left hn,
            Nat.sub_eq_zero_of_le (by simpa using hn)]

theorem unitsOf_splitChunks_snd (n : Nat) (cs : List Chunk) :
    unitsOf (splitChunks n cs).2 = (unitsOf cs).drop n := by
  induction cs generalizing n with
  | nil => simp [splitChunks]
  | cons c cs ih =>
    by_cases h0 : n = 0
    · simp [splitChunks, h0]
    · by_cases hle : entityLen c ≤ n
      · simp only [splitChunks, if_neg h0, if_pos hle, unitsOf_cons]
        rw [List.drop_append_eq_append_drop, chunkUnits_length,
          List.drop_eq_nil_of_le (by simpa using hle), ih]
        simp
      · simp only [splitChunks, if_neg h0, if_neg hle]
        match c with
        | .style op a => simp [entityLen] at hle; omega
        | .text s len =>
          simp only [entityLen] at hle
          have hn : n ≤ len := by omega
          simp only [unitsOf_cons, chunkUnits]
          rw [List.drop_append_eq_append_drop]
          have hlen : (List.map (fun j => REntity.chr (s + j)) (List.range len)).length = len := by
            simp
          rw [hlen, Nat.sub_eq_zero_of_le hn, List.drop_zero]
          congr 1
          rw [← List.map_drop]
          have hrange : List.range len = List.range n ++ (List.range (len - n)).map (n + ·) := by
            conv_lhs => rw [show len = n + (len - n) by omega]
            exact List.range_add n (len - n)
          rw [hrange, List.drop_append_eq_append_drop]
          rw [List.drop_eq_nil_of_le (by simp)]
          simp [List.map_map, Function.comp, Nat.add_assoc]

/-- Modelled from the spec: `insert_elem_at_entity_index` of the inner rope:
insert a chunk at an entity index, splitting a text chunk when the index
falls inside it. -/
def insertElemAt (i : Nat) (c : Chunk) (cs : List Chunk) : List Chunk :=
  let p := splitChunks i cs
  p.1 ++ c :: p.2

/-- Modelled from the spec: `drain_by_entity_index`: remove the entity range
starting at `i` of length `len`; returns (remaining chunks, removed chunks). -/
def drainAt (i len : Nat) (cs : List Chunk) : List Chunk × List Chunk :=
  let p := splitChunks i cs
  let q := splitChunks len p.2
  (p.1 ++ q.2, q.1)

theorem unitsOf_insertElemAt (i : Nat) (c : Chunk) (cs : List Chunk) :
    unitsOf (insertElemAt i c cs) =
      (unitsOf cs).take i ++ chunkUnits c ++ (unitsOf cs).drop i := by
  simp [insertElemAt, unitsOf_splitChunks_fst, unitsOf_splitChunks_snd]

theorem unitsOf_drainAt_fst (i len : Nat) (cs : List Chunk) :
    unitsOf (drainAt i len cs).1 =
      (unitsOf cs).take i ++ (unitsOf cs).drop (i + len) := by
  simp only [drainAt, unitsOf_append, unitsOf_splitChunks_fst, unitsOf_splitChunks_snd,
    List.drop_drop]

theorem unitsOf_drainAt_snd (i len : Nat) (cs : List Chunk) :
    unitsOf (drainAt i len cs).2 = ((unitsOf cs).drop i).take len := by
  simp [drainAt, unitsOf_splitChunks_fst, unitsOf_splitChunks_snd]

/-- Source `UndoItem` (richtext_state.rs): reverse record of a tentative
in-transaction edit. -/
inductive UndoItem where
  | ins (index len : Nat)
  | del (index : Nat) (content : Chunk)
deriving DecidableEq, Repr

/-- Source `RichtextState`: inner chunk state plus the transaction flag and
the undo stack (head of the list = top of the stack). -/
structure RState where
  state : List Chunk
  in_txn : Bool
  undo_stack : List UndoItem
deriving DecidableEq, Repr

/-- Source `InnerListOp` variants reaching `RichtextState::apply_op`: an
insert carries its interned slice range and entity position, a delete its
start and length, a style start the constructed `StyleOp`. -/
inductive InnerListOp where
  | insert (sliceStart sliceEnd : Nat) (pos : Nat)
  | delete (pos len : Nat)
  | styleStart (start end_ : Nat) (op : StyleOp)
  | styleEnd
deriving DecidableEq, Repr

def InnerListOp.isStyleStart : InnerListOp → Bool
  | .styleStart _ _ _ => true
  | _ => false

/-- Source `RichtextState::apply_op`: insert and delete record undo items
only when `in_txn` is set; `StyleStart` marks the range (inserting the two
anchors) and records nothing; `StyleEnd` is a no-op. Out-of-range positions
are rope contract violations (spec section 7) and yield `none`. -/
def apply_op (s : RState) : InnerListOp → Option RState
  | .insert a b pos =>
    if pos ≤ entityLenL s.state then
      some { s with
        state := insertElemAt pos (.text a (b - a)) s.state,
        undo_stack :=
          if s.in_txn then .ins pos (b - a) :: s.undo_stack else s.undo_stack }
    else none
  | .delete pos len =>
    if pos + len ≤ entityLenL s.state then
      let p := drainAt pos len s.state
      some { s with
        state := p.1,
        undo_stack :=
          if s.in_txn then (p.2.map (UndoItem.del pos)).reverse ++ s.undo_stack
          else s.undo_stack }
    else none
  | .styleStart a b op =>
    if a ≤ b ∧ b ≤ entityLenL s.state then
      some { s with
        state := insertElemAt a (.style op .start) (insertElemAt b (.style op .end_) s.state) }
    else none
  | .styleEnd => some s

/-- Source `start_txn`. -/
def start_txn (s : RState) : RState := { s with in_txn := true }

/-- Source `commit_txn`: leave the txn and clear the undo stack. -/
def commit_txn (s : RState) : RState := { s with in_txn := false, undo_stack := [] }

/-- Source `undo_all`, one popped item: undoing an insert drains the inserted
entity range; undoing a delete re-inserts the removed chunk, except that a
removed style chunk hits `unimplemented!` (modelled as `none`). -/
def undoStep (cs : List Chunk) : UndoItem → Option (List Chunk)
  | .ins index len =>
      if index + len ≤ entityLenL cs then some (drainAt index len cs).1 else none
  | .del index content =>
      match content with
      | .style _ _ => none
      | .text a l =>
          if index ≤ entityLenL cs then some (insertElemAt index (.text a l) cs)
          else none

/-- Source `undo_all`: pop and undo every item on the stack. -/
def undoAll : List UndoItem → List Chunk → Option (List Chunk)
  | [], cs => some cs
  | it :: rest, cs => (undoStep cs it).bind (undoAll rest)

/-- Source `abort_txn`: clear the flag and undo everything (after which the
stack is empty). -/
def abort_txn (s : RState) : Option RState :=
  (undoAll s.undo_stack s.state).map (fun cs => ⟨cs, false, []⟩)

/-- Sequential application of ops (each via `apply_op`). -/
def applyOps : List InnerListOp → RState → Option RState
  | [], s => some s
  | op :: rest, s => (apply_op s op).bind (applyOps rest)

/-- UTF-8 byte width of a unicode codepoint. -/
def utf8Width (c : Nat) : Nat :=
  if c < 0x80 then 1 else if c < 0x800 then 2 else if c < 0x10000 then 3 else 4

/-- UTF-16 code-unit width of a unicode codepoint. -/
def utf16Width (c : Nat) : Nat := if c < 0x10000 then 1 else 2

/-- Text entities resolve to their arena position; anchors are zero-width. -/
def entityChr : REntity → Option Nat
  | .chr p => some p
  | .anch _ _ => none

/-- Source `get_value` / `to_string` of the rich-text state: the rendered
codepoints, resolving each text entity against the arena content `A` and
skipping the zero-width anchors. -/
def rich_get_value (A : Nat → Nat) (cs : List Chunk) : List Nat :=
  ((unitsOf cs).filterMap entityChr).map A

/-- Modelled from the spec: `len_entity` aggregate (text codepoints and
anchors each count 1). -/
def len_entity (cs : List Chunk) : Nat := (unitsOf cs).length

/-- Modelled from the spec: `len_unicode` aggregate (anchors are 0-width). -/
def len_unicode (cs : List Chunk) : Nat := ((unitsOf cs).filterMap entityChr).length

/-- Modelled from the spec: `len_utf8` aggregate of the rendered text. -/
def len_utf8 (A : Nat → Nat) (cs : List Chunk) : Nat :=
  ((rich_get_value A cs).map utf8Width).sum

/-- Modelled from the spec: `len_utf16` aggregate of the rendered text. -/
def len_utf16 (A : Nat → Nat) (cs : List Chunk) : Nat :=
  ((rich_get_value A cs).map utf16Width).sum

/-- Unit-level mirror of `undoStep` (same semantics on entity sequences). -/
def undoStepU (u : List REntity) : UndoItem → Option (List REntity)
  | .ins index len =>
      if index + len ≤ u.length then some (u.take index ++ u.drop (index + len))
      else none
  | .del index content =>
      match content with
      | .style _ _ => none
      | .text a l =>
          if index ≤ u.length then
            some (u.take index ++ chunkUnits (.text a l) ++ u.drop index)
          else none

/-- Unit-level mirror of `undoAll`. -/
def undoAllU : List UndoItem → List REntity → Option (List REntity)
  | [], u => some u
  | it :: rest, u => (undoStepU u it).bind (undoAllU rest)

theorem undoStep_units (cs : List Chunk) (it : UndoItem) :
    (undoStep cs it).map unitsOf = undoStepU (unitsOf cs) it := by
  cases it with
  | ins index len =>
    simp only [undoStep, undoStepU, entityLenL_eq_units_length]
    by_cases h : index + len ≤ (unitsOf cs).length
    · simp [h, unitsOf_drainAt_fst]
    · simp [h]
  | del index content =>
    cases content with
    | style op a => simp [undoStep, undoStepU]
    | text a l =>
      simp only [undoStep, undoStepU, entityLenL_eq_units_length]
      by_cases h : index ≤ (unitsOf cs).length
      · simp [h, unitsOf_insertElemAt]
      · simp [h]

theorem undoAll_units (items : List UndoItem) (cs : List Chunk) :
    (undoAll items cs).map unitsOf = undoAllU items (unitsOf cs) := by
  induction items generalizing cs with
  | nil => rfl
  | cons it rest ih =>
    simp only [undoAll, undoAllU]
    have hs := undoStep_units cs it
    cases hstep : undoStep cs it with
    | none =>
      rw [hstep] at hs
      simp only [Option.map_none'] at hs
      rw [← hs]
      rfl
    | some cs2 =>
      rw [hstep] at hs
      simp only [Option.map_some'] at hs
      rw [← hs]
      simpa using ih cs2

theorem undoAllU_append (xs ys : List UndoItem) (u : List REntity) :
    undoAllU (xs ++ ys) u = (undoAllU xs u).bind (undoAllU ys) := by
  induction xs generalizing u with
  | nil => simp [undoAllU]
  | cons it rest ih =>
    simp only [List.cons_append, undoAllU]
    cases undoStepU u it <;> simp [ih]

/-- Text chunks are the only chunks `undo_all` can restore after a delete. -/
def isTextChunk : Chunk → Bool
  | .text _ _ => true
  | .style _ _ => false

theorem undoAllU_del_list (ds : List Chunk) (a b : List REntity) :
    undoAllU ((ds.map (UndoItem.del a.length)).reverse) (a ++ b) =
      if ds.all isTextChunk then some (a ++ unitsOf ds ++ b) else none := by
  induction ds generalizing b with
  | nil => simp [undoAllU, unitsOf]
  | cons d ds ih =>
    rw [List.map_cons, List.reverse_cons, undoAllU_append, ih]
    by_cases hall : ds.all isTextChunk
    · rw [if_pos hall]
      simp only [Option.some_bind]
      cases d with
      | style op an =>
        have : ¬ (Chunk.style op an :: ds).all isTextChunk = true := by
          simp [isTextChunk]
        simp only [undoAllU, undoStepU, Option.bind]
        rw [if_neg this]
      | text s l =>
        have hg : a.length ≤ (a ++ unitsOf ds ++ b).length := by
          simp
        have hsplit : a ++ unitsOf ds ++ b = a ++ (unitsOf ds ++ b) := by
          simp [List.append_assoc]
        simp only [undoAllU, undoStepU, if_pos hg, Option.some_bind]
        rw [hsplit, List.take_left, List.drop_left]
        have hall2 : (Chunk.text s l :: ds).all isTextChunk = true := by
          simp only [List.all_cons, hall, isTextChunk, Bool.and_true]
        rw [if_pos hall2]
        simp [List.append_assoc]
    · rw [if_neg hall]
      have : ¬ (d :: ds).all isTextChunk = true := by
        simp only [List.all_cons, Bool.and_eq_true, not_and]
        intro _
        simpa using hall
      rw [if_neg this]
      rfl

theorem undoAllU_del_list' (ds : List Chunk) (a b : List REntity) (pos : Nat)
    (ha : a.length = pos) :
    undoAllU ((ds.map (UndoItem.del pos)).reverse) (a ++ b) =
      if ds.all isTextChunk then some (a ++ unitsOf ds ++ b) else none := by
  subst ha
  exact undoAllU_del_list ds a b

theorem take_drop_restore (u w : List REntity) (i l : Nat)
    (hi : i ≤ u.length) (hw : w.length = l) :
    (u.take i ++ w ++ u.drop i).take i ++ (u.take i ++ w ++ u.drop i).drop (i + l) = u := by
  have h1 : (u.take i).length = i := by simp [hi]
  have h2 : (u.take i ++ w).length = i + l := by simp [h1, hw]
  have ht : (u.take i ++ w ++ u.drop i).take i = u.take i := by
    rw [List.append_assoc]
    exact List.take_left' h1
  have hd : (u.take i ++ w ++ u.drop i).drop (i + l) = u.drop i := List.drop_left' h2
  rw [ht, hd, List.take_append_drop]

theorem take_seg_drop (u : List REntity) (i l : Nat) :
    u.take i ++ ((u.drop i).take l ++ u.drop (i + l)) = u := by
  have h : u.drop (i + l) = (u.drop i).drop l := by
    rw [List.drop_drop]
  rw [h, List.take_append_drop, List.take_append_drop]

/-- Undoing any single text op (not a StyleStart) either exactly restores the
pending undo result or aborts; the undo stack and state stay in sync. -/
theorem apply_op_undo_inv (s s' : RState) (op : InnerListOp)
    (hop : op.isStyleStart = false) (htxn : s.in_txn = true)
    (h : apply_op s op = some s') :
    s'.in_txn = true ∧
      (undoAllU s'.undo_stack (unitsOf s'.state) =
          undoAllU s.undo_stack (unitsOf s.state) ∨
        undoAllU s'.undo_stack (unitsOf s'.state) = none) := by
  cases op with
  | styleStart a b op' => simp [InnerListOp.isStyleStart] at hop
  | styleEnd =>
    simp only [apply_op, Option.some.injEq] at h
    subst h
    exact ⟨htxn, Or.inl rfl⟩
  | insert a b pos =>
    simp only [apply_op] at h
    by_cases hg : pos ≤ entityLenL s.state
    · rw [if_pos hg, Option.some.injEq] at h
      subst h
      have hu : pos ≤ (unitsOf s.state).length := by
        rw [← entityLenL_eq_units_length]; exact hg
      have hW : (chunkUnits (Chunk.text a (b - a))).length = b - a := by
        simp [entityLen]
      refine ⟨htxn, Or.inl ?_⟩
      simp only [htxn, if_true, unitsOf_insertElemAt, undoAllU, undoStepU]
      have hlen : pos + (b - a) ≤
          ((unitsOf s.state).take pos ++ chunkUnits (Chunk.text a (b - a)) ++
            (unitsOf s.state).drop pos).length := by
        simp only [List.length_append, List.length_take, List.length_drop, hW,
          Nat.min_eq_left hu]
        omega
      rw [if_pos hlen]
      simp only [Option.some_bind]
      rw [take_drop_restore _ _ _ _ hu hW]
    · rw [if_neg hg] at h
      exact absurd h (by simp)
  | delete pos len =>
    simp only [apply_op] at h
    by_cases hg : pos + len ≤ entityLenL s.state
    · rw [if_pos hg, Option.some.injEq] at h
      subst h
      have hu : pos + len ≤ (unitsOf s.state).length := by
        rw [← entityLenL_eq_units_length]; exact hg
      have ha : ((unitsOf s.state).take pos).length = pos := by
        simp only [List.length_take]
        omega
      refine ⟨htxn, ?_⟩
      simp only [htxn, if_true]
      rw [undoAllU_append, unitsOf_drainAt_fst,
        undoAllU_del_list' _ _ _ pos ha]
      by_cases hall : ((drainAt pos len s.state).2).all isTextChunk
      · rw [if_pos hall]
        simp only [Option.some_bind]
        left
        congr 1
        rw [unitsOf_drainAt_snd, List.append_assoc]
        exact take_seg_drop (unitsOf s.state) pos len
      · rw [if_neg hall]
        right
        rfl
    · rw [if_neg hg] at h
      exact absurd h (by simp)

/-- Iterating `apply_op` over text ops preserves undo-invertibility. -/
theorem applyOps_undo_inv (ops : List InnerListOp) :
    ∀ s s' : RState, (∀ op ∈ ops, op.isStyleStart = false) → s.in_txn = true →
      applyOps ops s = some s' →
      s'.in_txn = true ∧
        (undoAllU s'.undo_stack (unitsOf s'.state) =
            undoAllU s.undo_stack (unitsOf s.state) ∨
          undoAllU s'.undo_stack (unitsOf s'.state) = none) := by
  induction ops with
  | nil =>
    intro s s' _ ht h
    simp only [applyOps, Option.some.injEq] at h
    subst h
    exact ⟨ht, Or.inl rfl⟩
  | cons op rest ih =>
    intro s s' hops ht h
    simp only [applyOps] at h
    cases h1 : apply_op s op with
    | none => rw [h1] at h; exact absurd h (by simp)
    | some s1 =>
      rw [h1] at h
      simp only [Option.some_bind] at h
      obtain ⟨ht1, hinv1⟩ := apply_op_undo_inv s s1 op (hops op (by simp)) ht h1
      obtain ⟨ht2, hinv2⟩ := ih s1 s' (fun o ho => hops o (by simp [ho])) ht1 h
      refine ⟨ht2, ?_⟩
      rcases hinv2 with h2 | h2
      · rcases hinv1 with h1' | h1'
        · exact Or.inl (h2.trans h1')
        · exact Or.inr (h2.trans h1')
      · exact Or.inr h2

/-- C2 (amended): for a transaction consisting of text inserts and deletes
(no StyleStart ops), started with an empty undo stack, whenever the ops
apply and `abort_txn` completes (it aborts with `unimplemented` exactly when
a delete drained a style anchor), the state after `abort_txn` has the same
`get_value` and the same four length metrics as the state on which
`start_txn` was called. -/
theorem c2_abort_txn_restores (A : Nat → Nat) (s0 s1 s2 : RState)
    (ops : List InnerListOp)
    (hops : ∀ op ∈ ops, op.isStyleStart = false)
    (hstack : s0.undo_stack = [])
    (h1 : applyOps ops (start_txn s0) = some s1)
    (h2 : abort_txn s1 = some s2) :
    rich_get_value A s2.state = rich_get_value A s0.state ∧
      len_utf8 A s2.state = len_utf8 A s0.state ∧
      len_utf16 A s2.state = len_utf16 A s0.state ∧
      len_unicode s2.state = len_unicode s0.state ∧
      len_entity s2.state = len_entity s0.state := by
  have htxn : (start_txn s0).in_txn = true := rfl
  obtain ⟨ht1, hinv⟩ := applyOps_undo_inv ops (start_txn s0) s1 hops htxn h1
  have hpre : undoAllU (start_txn s0).undo_stack (unitsOf (start_txn s0).state)
      = some (unitsOf s0.state) := by
    simp [start_txn, hstack, undoAllU]
  simp only [abort_txn] at h2
  cases hu : undoAll s1.undo_stack s1.state with
  | none =>
    rw [hu] at h2
    exact absurd h2 (by simp)
  | some cs =>
    rw [hu] at h2
    simp only [Option.map_some', Option.some.injEq] at h2
    have hcs : s2.state = cs := by rw [← h2]
    have hU : undoAllU s1.undo_stack (unitsOf s1.state) = some (unitsOf cs) := by
      rw [← undoAll_units, hu]
      rfl
    rcases hinv with hiv | hiv
    · rw [hpre] at hiv
      rw [hU] at hiv
      have hunits : unitsOf cs = unitsOf s0.state := by
        exact Option.some.inj hiv
      rw [hcs]
      simp [rich_get_value, len_utf8, len_utf16, len_unicode, len_entity, hunits]
    · rw [hU] at hiv
      exact absurd hiv (by simp)

/-- C2 counterexample: the claim as stated fails. A StyleStart op applied
inside a transaction records no undo item (`apply_op` pushes nothing for
`mark_with_entity_index`), so `abort_txn` succeeds but leaves both style
anchors in the state: `len_entity` goes from 0 to 2. -/
theorem c2_claim_false :
    ((applyOps [InnerListOp.styleStart 0 0 ⟨0, 0, 0, 0, 0⟩]
        (start_txn ⟨[], false, []⟩)).bind abort_txn).map
        (fun s => len_entity s.state) = some 2 ∧
      len_entity (RState.mk [] false []).state = 0 := by
  decide

/-- Concrete run of the amended C2 theorem: state "ab" (arena positions 0,1),
txn inserts a 3-codepoint slice at entity index 1 and then deletes the first
two entities; abort restores the rendered value and all metrics. -/
theorem c2_abort_txn_restores_witness :
    rich_get_value (fun n => n) [Chunk.text 0 1, Chunk.text 1 1] =
        rich_get_value (fun n => n) [Chunk.text 0 2] ∧
      len_entity [Chunk.text 0 1, Chunk.text 1 1] = len_entity [Chunk.text 0 2] := by
  have h := c2_abort_txn_restores (fun n => n) ⟨[Chunk.text 0 2], false, []⟩
      ⟨[Chunk.text 6 2, Chunk.text 1 1], true,
        [UndoItem.del 0 (Chunk.text 5 1), UndoItem.del 0 (Chunk.text 0 1),
          UndoItem.ins 1 3]⟩
      ⟨[Chunk.text 0 1, Chunk.text 1 1], false, []⟩
      [InnerListOp.insert 5 8 1, InnerListOp.delete 0 2]
      (by decide) rfl (by decide) (by decide)
  exact ⟨h.1, h.2.2.2.2⟩

/-- First-match association-list lookup (models hash-map `get`; inserts are
modelled by shadowing cons). -/
def flookup {α β : Type} [DecidableEq α] : List (α × β) → α → Option β
  | [], _ => none
  | (k, v) :: rest, key => if key = k then some v else flookup rest key

/-- Source `DeltaItem` variants reaching `RichtextState::apply_diff`. -/
inductive DeltaItem where
  | retain (n : Nat)
  | insert (c : Chunk)
  | delete (n : Nat)
deriving DecidableEq, Repr

/-- Source `RichtextState::apply_diff` loop: inserts and deletes push undo
items unconditionally (there is no `in_txn` check on this path); `Retain`
advances the running entity index; an `End` style anchor with no recorded
`Start` hits `expect("Style start not found")` (modelled as `none`);
`annotate_style_range` only decorates leaves and does not change the chunk
sequence. -/
def apply_diff_loop :
    RState → Nat → List (StyleOp × Nat) → List DeltaItem → Option RState
  | s, _, _, [] => some s
  | s, idx, starts, .retain n :: rest => apply_diff_loop s (idx + n) starts rest
  | s, idx, starts, .insert c :: rest =>
    let s1 : RState :=
      { s with
        state := insertElemAt idx c s.state,
        undo_stack := .ins idx (entityLen c) :: s.undo_stack }
    match c with
    | .text _ _ => apply_diff_loop s1 (idx + entityLen c) starts rest
    | .style op .start => apply_diff_loop s1 (idx + 1) ((op, idx) :: starts) rest
    | .style op .end_ =>
      match flookup starts op with
      | none => none
      | some _ => apply_diff_loop s1 (idx + 1) starts rest
  | s, idx, starts, .delete n :: rest =>
    let p := drainAt idx n s.state
    let s1 : RState :=
      { s with
        state := p.1,
        undo_stack := (p.2.map (UndoItem.del idx)).reverse ++ s.undo_stack }
    apply_diff_loop s1 idx starts rest

/-- Source `RichtextState::apply_diff`. -/
def apply_diff (s : RState) (d : List DeltaItem) : Option RState :=
  apply_diff_loop s 0 [] d

/-- C5 (amended): `apply_op` consults the in-transaction flag — with `in_txn`
false it leaves the undo stack unchanged for every op — but `apply_diff`
does not: it pushes an undo record for an insert item even when `in_txn` is
false. -/
theorem c5_apply_paths (s : RState) (hs : s.in_txn = false) :
    (∀ op s', apply_op s op = some s' → s'.undo_stack = s.undo_stack) ∧
      ∀ a l, (apply_diff s [DeltaItem.insert (Chunk.text a l)]).map
          RState.undo_stack = some (UndoItem.ins 0 l :: s.undo_stack) := by
  constructor
  · intro op s' h
    cases op with
    | insert a b pos =>
      simp only [apply_op] at h
      by_cases hg : pos ≤ entityLenL s.state
      · rw [if_pos hg, Option.some.injEq] at h
        subst h
        simp [hs]
      · rw [if_neg hg] at h
        exact absurd h (by simp)
    | delete pos len =>
      simp only [apply_op] at h
      by_cases hg : pos + len ≤ entityLenL s.state
      · rw [if_pos hg, Option.some.injEq] at h
        subst h
        simp [hs]
      · rw [if_neg hg] at h
        exact absurd h (by simp)
    | styleStart a b op' =>
      simp only [apply_op] at h
      by_cases hg : a ≤ b ∧ b ≤ entityLenL s.state
      · rw [if_pos hg, Option.some.injEq] at h
        subst h
        rfl
      · rw [if_neg hg] at h
        exact absurd h (by simp)
    | styleEnd =>
      simp only [apply_op, Option.some.injEq] at h
      subst h
      rfl
  · intro a l
    simp [apply_diff, apply_diff_loop, entityLen]

/-- C5 counterexample: the claim as stated fails on `apply_diff`, which
pushes an `UndoItem` for an insert delta item although `in_txn` is false. -/
theorem c5_claim_false :
    (RState.mk [] false []).in_txn = false ∧
      (apply_diff ⟨[], false, []⟩ [DeltaItem.insert (Chunk.text 0 1)]).map
          RState.undo_stack ≠ some [] := by
  decide

/-- Concrete run of the amended C5 theorem. -/
theorem c5_apply_paths_witness :
    (apply_diff ⟨[Chunk.text 0 2], false, []⟩
        [DeltaItem.insert (Chunk.text 7 3)]).map RState.undo_stack =
      some [UndoItem.ins 0 3] := by
  have h := c5_apply_paths ⟨[Chunk.text 0 2], false, []⟩ rfl
  exact h.2 7 3

/-- Source `CompactStyleOp` (loro-preload snapshot format). -/
structure CompactStyleOp where
  peer_idx : Nat
  key_idx : Nat
  counter : Nat
  lamport : Nat
  style_info : Nat
deriving DecidableEq, Repr

/-- Source `EncodedRichtextState`; `is_style_start` is kept as the bit list
of the packed little-endian bitmap (one bit per style entry, padded with
false bits to a whole number of bytes). -/
structure EncodedRichtextState where
  len : List Nat
  text : List (Nat × Nat)
  styles : List CompactStyleOp
  is_style_start : List Bool
deriving DecidableEq, Repr

def isStartAnchor : AnchorType → Bool
  | .start => true
  | .end_ => false

/-- Encoder accumulator; the vectors are kept reversed (head = last pushed)
so that the source's `*len.last_mut() += 1` is an update of the head. -/
structure EncAcc where
  lenRev : List Nat
  textRev : List (Nat × Nat)
  stylesRev : List CompactStyleOp
  bitsRev : List Bool
  is_last_style : Bool
deriving DecidableEq, Repr

/-- One iteration of the `encode_snapshot` chunk loop, translated branch by
branch (including the unreachable `len.is_empty()` zero-run branch inside
the `is_last_style` case). -/
def encStep (record_peer record_key : Nat → Nat) (acc : EncAcc) (c : Chunk) :
    EncAcc :=
  match c with
  | .text s l =>
    let lenRev :=
      if acc.is_last_style || acc.lenRev.isEmpty then 1 :: acc.lenRev
      else
        match acc.lenRev with
        | [] => [1]
        | h :: t => (h + 1) :: t
    { acc with
      lenRev
      textRev := (s, s + l) :: acc.textRev
      is_last_style := false }
  | .style op anchor =>
    let lenRev :=
      if !acc.is_last_style then 1 :: acc.lenRev
      else
        let withZeros := if acc.lenRev.isEmpty then 0 :: 0 :: acc.lenRev else acc.lenRev
        match withZeros with
        | [] => [1]
        | h :: t => (h + 1) :: t
    { acc with
      lenRev
      stylesRev :=
        ⟨record_peer op.peer, record_key op.key, op.cnt, op.lamport, op.info⟩ ::
          acc.stylesRev
      bitsRev := isStartAnchor anchor :: acc.bitsRev
      is_last_style := true }

/-- Pad a bit list with false bits to a whole number of bytes (the
`BitMap::into_vec` / `BitMap::from_vec` round trip of the source). -/
def pad8 (bits : List Bool) : List Bool :=
  bits ++ List.replicate ((8 - bits.length % 8) % 8) false

/-- Source `RichtextState::encode_snapshot`: walk the chunks, building the
alternating `len` vector, the text ranges, the compact styles and the
anchor-type bitmap. -/
def encode_snapshot (record_peer record_key : Nat → Nat) (cs : List Chunk) :
    EncodedRichtextState :=
  let acc := cs.foldl (encStep record_peer record_key) ⟨[], [], [], [], false⟩
  ⟨acc.lenRev.reverse, acc.textRev.reverse, acc.stylesRev.reverse,
    pad8 acc.bitsRev.reverse⟩

/-- Decode one compact style against the recorded peer table and keyword
table (out-of-range indices are Rust index panics, hence `none`). -/
def decodeStyle (peer_ids keywords : List Nat) (c : CompactStyleOp) (b : Bool) :
    Option Chunk := do
  let peer ← peer_ids.get? c.peer_idx
  let key ← keywords.get? c.key_idx
  pure (.style ⟨c.lamport, peer, c.counter, key, c.style_info⟩
    (if b then .start else .end_))

/-- Read `n` bits, missing bits (bitmap padding) read as false. -/
def takeBits (n : Nat) (bits : List Bool) : List Bool :=
  (List.range n).map (fun i => bits.getD i false)

/-- Source `RichtextState::decode_snapshot` loop: for each entry of `len`,
alternating starting with text, consume that many text ranges or styles;
an exhausted iterator is the source's `.unwrap()` panic (`none`). -/
def decode_runs (peer_ids keywords : List Nat) :
    List Nat → Bool → List (Nat × Nat) → List CompactStyleOp → List Bool →
      Option (List Chunk)
  | [], _, _, _, _ => some []
  | n :: rest, is_text, texts, styles, bits =>
    if is_text then
      if n ≤ texts.length then
        (decode_runs peer_ids keywords rest false (texts.drop n) styles bits).map
          (fun tail =>
            (texts.take n).map (fun r => Chunk.text r.1 (r.2 - r.1)) ++ tail)
      else none
    else
      if n ≤ styles.length then
        match ((styles.take n).zip (takeBits n bits)).mapM
            (fun cb => decodeStyle peer_ids keywords cb.1 cb.2) with
        | none => none
        | some chunks =>
          (decode_runs peer_ids keywords rest true texts (styles.drop n)
              (bits.drop n)).map (fun tail => chunks ++ tail)
      else none

/-- Source `RichtextState::decode_snapshot` (the loader pushes chunks in
order; `peer_ids` and `keywords` are `common.peer_ids` / the keyword arena). -/
def decode_snapshot (peer_ids keywords : List Nat)
    (e : EncodedRichtextState) : Option (List Chunk) :=
  decode_runs peer_ids keywords e.len true e.text e.styles e.is_style_start

/-- C1: a valid state whose first chunk is a style anchor ("x" wholly
styled) breaks the snapshot round trip. The encoder emits `len = [1, 1, 1]`
with no leading zero-length text run — the zero-run branch is dead code,
because it sits inside the `is_last_style` case which implies `len` is
non-empty — so the decoder consumes the first run as a text run and panics
on the exhausted text iterator. -/
theorem c1_snapshot_roundtrip_bug :
    encode_snapshot (fun _ => 0) (fun _ => 0)
        [Chunk.style ⟨0, 0, 0, 0, 0⟩ .start, Chunk.text 0 1,
          Chunk.style ⟨0, 0, 0, 0, 0⟩ .end_] =
      ⟨[1, 1, 1], [(0, 1)], [⟨0, 0, 0, 0, 0⟩, ⟨0, 0, 0, 0, 0⟩],
        [true, false, false, false, false, false, false, false]⟩ ∧
      decode_snapshot [0] [0]
        (encode_snapshot (fun _ => 0) (fun _ => 0)
          [Chunk.style ⟨0, 0, 0, 0, 0⟩ .start, Chunk.text 0 1,
            Chunk.style ⟨0, 0, 0, 0, 0⟩ .end_]) = none := by
  decide

/-- Peer / client identifier (source `ClientID` / `PeerID`, a u64). -/
abbrev PeerID := Nat

/-- Source `ID { client_id, counter }` (counter is an i32). -/
structure OpID where
  client : PeerID
  counter : Int
deriving DecidableEq, Repr

/-- Modelled from the spec: a version vector is a finite map peer → next
counter not yet seen (source `VersionVector`, a hash map, not in the given
slice); entries are an association list with the map's unique-key invariant
stated where needed. -/
abbrev VersionVector := List (PeerID × Nat)

/-- Map lookup in a version vector. -/
def vvGet (vv : VersionVector) (p : PeerID) : Option Nat := flookup vv p

/-- Source `VersionVector::includes_id`: true when the id's counter is
strictly below the next counter recorded for its client. -/
def includes_id (vv : VersionVector) (id : OpID) : Bool :=
  match vvGet vv id.client with
  | some ctr => decide (id.counter < (ctr : Int))
  | none => false

/-- An id span for one client: counters `[counter, counter + len)`. -/
structure IdSpanV where
  client : PeerID
  counter : Int
  len : Nat
deriving DecidableEq, Repr

/-- The tracker primitives `track_apply` invokes, in order: `forward` by a
span without ingesting, or `apply` of an op at an id. -/
inductive TrackerAction where
  | fwd (span : IdSpanV)
  | app (id : OpID) (content : List Nat)
deriving DecidableEq, Repr

/-- RLE `Sliceable::slice(from, to)` on an op content modelled as its atom
list. -/
def contentSlice (f t : Nat) (c : List Nat) : List Nat := (c.drop f).take (t - f)

/-- Source `TextContainer::track_apply` dispatch: the three-way case split on
the tracker's `all_vv`, returned as the list of tracker primitives invoked.
The `.unwrap()` of `all_vv.get(&id.client_id)` is modelled by `none`. -/
def track_apply (all_vv : VersionVector) (id : OpID) (content : List Nat) :
    Option (List TrackerAction) :=
  if includes_id all_vv ⟨id.client, id.counter + content.length - 1⟩ then
    some [.fwd ⟨id.client, id.counter, content.length⟩]
  else if includes_id all_vv id then
    match vvGet all_vv id.client with
    | none => none
    | some thisCtr =>
      let shift := ((thisCtr : Int) - id.counter).toNat
      some [.fwd ⟨id.client, id.counter, shift⟩,
        .app ⟨id.client, id.counter + shift⟩
          (contentSlice shift content.length content)]
  else
    some [.app id content]

/-- C3: `track_apply` with op span `[id, id_last]` (1) only forwards by the
op's length when `all_vv` includes `id_last`; (2) when `all_vv` includes
`id` but not `id_last`, forwards past the known prefix of length
`all_vv[client] - id.counter` and applies the remaining suffix (the slice
from the shift point to the end, i.e. `drop shift`), the two parts exactly
partitioning the op; (3) otherwise applies the op in full. -/
theorem c3_track_apply_cases (vv : VersionVector) (id : OpID) (c : List Nat)
    (hc : 0 < c.length) :
    (includes_id vv ⟨id.client, id.counter + c.length - 1⟩ = true →
        track_apply vv id c = some [.fwd ⟨id.client, id.counter, c.length⟩]) ∧
      (includes_id vv ⟨id.client, id.counter + c.length - 1⟩ = false →
        includes_id vv id = true →
        ∃ t : Nat, vvGet vv id.client = some t ∧ id.counter < (t : Int) ∧
          (t : Int) < id.counter + c.length ∧
          track_apply vv id c =
            some [.fwd ⟨id.client, id.counter, ((t : Int) - id.counter).toNat⟩,
              .app ⟨id.client, (t : Int)⟩
                (c.drop ((t : Int) - id.counter).toNat)] ∧
          ((t : Int) - id.counter).toNat +
              (c.drop ((t : Int) - id.counter).toNat).length = c.length) ∧
      (includes_id vv ⟨id.client, id.counter + c.length - 1⟩ = false →
        includes_id vv id = false →
        track_apply vv id c = some [.app id c]) := by
  refine ⟨?_, ?_, ?_⟩
  · intro h1
    simp [track_apply, h1]
  · intro h1 h2
    cases hv : vvGet vv id.client with
    | none => rw [includes_id, hv] at h2; exact absurd h2 (by simp)
    | some t =>
      have hlt : id.counter < (t : Int) := by
        by_contra hno
        rw [includes_id, hv] at h2
        simp [hno] at h2
      have hle : (t : Int) ≤ id.counter + c.length - 1 := by
        by_contra hno
        simp only [not_le] at hno
        rw [includes_id, hv] at h1
        simp only [decide_eq_false_iff_not, not_lt] at h1
        omega
      have hup : (t : Int) < id.counter + c.length := by omega
      have hslice : contentSlice ((t : Int) - id.counter).toNat c.length c =
          c.drop ((t : Int) - id.counter).toNat := by
        have hl : (c.drop ((t : Int) - id.counter).toNat).length =
            c.length - ((t : Int) - id.counter).toNat := by simp
        rw [contentSlice, ← hl, List.take_length]
      have hidc : id.counter + (((t : Int) - id.counter).toNat : Int) = (t : Int) := by
        omega
      have h2b : includes_id vv id = true := by
        rw [includes_id, hv]
        simpa using hlt
      refine ⟨t, rfl, hlt, hup, ?_, ?_⟩
      · simp only [track_apply, h1, Bool.false_eq_true, if_false, h2b, if_true]
        rw [hv]
        simp only [hslice, hidc]
      · have hsh : ((t : Int) - id.counter).toNat ≤ c.length := by omega
        simp only [List.length_drop]
        omega
  · intro h1 h2
    simp [track_apply, h1, h2]

/-- Concrete run of case 2 of C3: `all_vv = {1 ↦ 5}`, op at id (1,3) of
length 4: forward past the known counters 3,4, apply the suffix at (1,5). -/
theorem c3_track_apply_witness :
    track_apply [(1, 5)] ⟨1, 3⟩ [10, 11, 12, 13] =
      some [.fwd ⟨1, 3, 2⟩, .app ⟨1, 5⟩ [12, 13]] := by
  obtain ⟨t, ht, hlt, hup, happ, hpart⟩ :=
    (c3_track_apply_cases [(1, 5)] ⟨1, 3⟩ [10, 11, 12, 13] (by decide)).2.1
      (by decide) (by decide)
  have h5 : (5 : Nat) = t := by simpa [vvGet, flookup] using ht
  subst h5
  rw [happ]
  decide

theorem flookup_mem {α β : Type} [DecidableEq α] (l : List (α × β)) (k : α)
    (v : β) (h : flookup l k = some v) : (k, v) ∈ l := by
  induction l with
  | nil => simp [flookup] at h
  | cons e rest ih =>
    obtain ⟨k', v'⟩ := e
    by_cases hk : k = k'
    · rw [flookup, if_pos hk] at h
      subst hk
      simp only [Option.some.injEq] at h
      subst h
      exact List.mem_cons_self _ _
    · rw [flookup, if_neg hk] at h
      exact List.mem_cons_of_mem _ (ih h)

theorem flookup_eq_of_nodup_mem {α β : Type} [DecidableEq α]
    (l : List (α × β)) (hn : (l.map Prod.fst).Nodup) (k : α) (v : β)
    (hm : (k, v) ∈ l) : flookup l k = some v := by
  induction l with
  | nil => simp at hm
  | cons e rest ih =>
    obtain ⟨k', v'⟩ := e
    simp only [List.map_cons, List.nodup_cons] at hn
    rcases List.mem_cons.mp hm with he | hm'
    · obtain ⟨rfl, rfl⟩ := Prod.mk.injEq .. ▸ he
      injection he with h1 h2
      simp [flookup]
    · have hk : k ≠ k' := by
        intro hkk
        subst hkk
        exact hn.1 (by simpa using List.mem_map_of_mem Prod.fst hm')
      rw [flookup, if_neg hk]
      exact ih hn.2 hm'

/-- Componentwise default lookup: an absent peer has seen nothing. -/
def vvGetD (vv : VersionVector) (p : PeerID) : Nat := (vvGet vv p).getD 0

/-- Decidable one-sided comparison mirroring the hash-map `PartialOrd`
(check every entry of `a` against `b`). -/
def vvLeB (a b : VersionVector) : Bool :=
  a.all (fun e => decide (e.2 ≤ vvGetD b e.1))

/-- Modelled from the spec: componentwise version-vector order (glossary:
comparison is componentwise, per peer). -/
def vvLe (a b : VersionVector) : Prop := ∀ p, vvGetD a p ≤ vvGetD b p

theorem vvLeB_iff_vvLe (a b : VersionVector)
    (ha : (a.map Prod.fst).Nodup) : vvLeB a b = true ↔ vvLe a b := by
  constructor
  · intro h p
    cases hv : vvGet a p with
    | none => simp [vvGetD, hv]
    | some c =>
      have hm := flookup_mem a p c hv
      have := (List.all_eq_true.mp h) _ hm
      simp only [decide_eq_true_eq] at this
      simpa [vvGetD, hv] using this
  · intro h
    refine List.all_eq_true.mpr ?_
    rintro ⟨p, c⟩ hm
    have hl : vvGet a p = some c := flookup_eq_of_nodup_mem a ha p c hm
    have := h p
    rw [vvGetD, hl] at this
    simpa using this

/-- Modelled from the spec: the tracker state consulted by
`tracker_checkout` — `start_vv` (earliest retreatable point), `all_vv`
(everything applied), the currently checked-out position, and the counter
offset passed at construction (source `Tracker`, module
`container::text::tracker`, not in the given slice). -/
structure Tracker where
  start_vv : VersionVector
  all_vv : VersionVector
  current_vv : VersionVector
  counter_offset : Int
deriving DecidableEq, Repr

/-- Modelled from the spec: `Tracker::new(start_vv, counter_offset)` is a
fresh tracker anchored at `start_vv`. -/
def Tracker.new (vv : VersionVector) (offset : Int) : Tracker :=
  ⟨vv, vv, vv, offset⟩

/-- Modelled from the spec: `checkout` brings the tracker's position to
exactly `vv`. -/
def Tracker.checkout (t : Tracker) (vv : VersionVector) : Tracker :=
  { t with current_vv := vv }

/-- i32::MAX (source `Counter::MAX`). -/
def counterMax : Int := 2147483647

/-- The reuse condition of `TextContainer::tracker_checkout`, written as in
the source: `(!vv.is_empty() || start_vv.is_empty()) && all_vv >= vv &&
vv >= start_vv`. -/
def checkoutCond (t : Tracker) (vv : VersionVector) : Bool :=
  (!vv.isEmpty || t.start_vv.isEmpty) && vvLeB vv t.all_vv && vvLeB t.start_vv vv

/-- Source `TextContainer::tracker_checkout`: reuse and check out the old
tracker when the condition holds, otherwise rebuild a fresh tracker anchored
at `vv` with counter offset `Counter::MAX / 2`. -/
def tracker_checkout (t : Tracker) (vv : VersionVector) : Tracker :=
  if checkoutCond t vv then t.checkout vv else Tracker.new vv (counterMax / 2)

/-- C4: `tracker_checkout(vv)` reuses the existing tracker (checking it out
at `vv`) exactly when `vv` is non-empty or `start_vv` is empty, and
`start_vv ≤ vv ≤ all_vv` componentwise; otherwise it discards the tracker
and builds a fresh one anchored at `vv` with counter offset
`Counter::MAX / 2 = 1073741823`. -/
theorem c4_tracker_checkout (t : Tracker) (vv : VersionVector)
    (hvv : (vv.map Prod.fst).Nodup)
    (hsv : (t.start_vv.map Prod.fst).Nodup) :
    (checkoutCond t vv = true ↔
        (vv ≠ [] ∨ t.start_vv = []) ∧ vvLe vv t.all_vv ∧ vvLe t.start_vv vv) ∧
      (checkoutCond t vv = true → tracker_checkout t vv = t.checkout vv) ∧
      (checkoutCond t vv = false →
        tracker_checkout t vv = Tracker.new vv 1073741823) := by
  refine ⟨?_, ?_, ?_⟩
  · rw [checkoutCond]
    simp only [Bool.and_eq_true, Bool.or_eq_true, Bool.not_eq_true']
    rw [vvLeB_iff_vvLe vv t.all_vv hvv, vvLeB_iff_vvLe t.start_vv vv hsv]
    constructor
    · rintro ⟨⟨hne, hle1⟩, hle2⟩
      refine ⟨?_, hle1, hle2⟩
      rcases hne with hne | hne
      · exact Or.inl (by simpa [List.isEmpty_iff] using hne)
      · exact Or.inr (by simpa [List.isEmpty_iff] using hne)
    · rintro ⟨hne, hle1, hle2⟩
      refine ⟨⟨?_, hle1⟩, hle2⟩
      rcases hne with hne | hne
      · exact Or.inl (by simpa [List.isEmpty_iff] using hne)
      · exact Or.inr (by simpa [List.isEmpty_iff] using hne)
  · intro h
    rw [tracker_checkout, if_pos h]
  · intro h
    rw [tracker_checkout, if_neg (by simp [h]), Tracker.new]
    rfl

/-- Concrete runs of C4: a vv inside `[start_vv, all_vv]` reuses the old
tracker; a vv below `start_vv` rebuilds a fresh one. -/
theorem c4_tracker_checkout_witness :
    tracker_checkout ⟨[(1, 2)], [(1, 5)], [(1, 5)], 0⟩ [(1, 3)] =
        Tracker.checkout ⟨[(1, 2)], [(1, 5)], [(1, 5)], 0⟩ [(1, 3)] ∧
      tracker_checkout ⟨[(1, 2)], [(1, 5)], [(1, 5)], 0⟩ [(1, 1)] =
        Tracker.new [(1, 1)] 1073741823 := by
  constructor
  · exact (c4_tracker_checkout ⟨[(1, 2)], [(1, 5)], [(1, 5)], 0⟩ [(1, 3)]
      (by decide) (by decide)).2.1 (by decide)
  · exact (c4_tracker_checkout ⟨[(1, 2)], [(1, 5)], [(1, 5)], 0⟩ [(1, 1)]
      (by decide) (by decide)).2.2 (by decide)

/-- Modelled from the spec: the text container's string pool
(`string_pool.rs`, not in the given slice): the interned content (codepoint
at each arena position) together with the per-position aliveness flag
maintained by GC. -/
structure StringPool where
  content : Nat → Nat
  alive : Nat → Bool

/-- Source `StringPool::get_str(&range)`: the pool text of a range. -/
def get_str (pool : StringPool) (start end_ : Nat) : List Nat :=
  (List.range (end_ - start)).map (fun j => pool.content (start + j))

/-- Source `Alive` runs (string_pool.rs): a run length and its aliveness
(`Alive::True(len)` / `Alive::False(len)`). -/
structure AliveSpan where
  alive : Bool
  len : Nat
deriving DecidableEq, Repr

/-- Run-length encoding of a boolean sequence. -/
def rleBools : List Bool → List AliveSpan
  | [] => []
  | b :: bs =>
    match rleBools bs with
    | [] => [⟨b, 1⟩]
    | a :: rest =>
      if a.alive = b then ⟨b, a.len + 1⟩ :: rest else ⟨b, 1⟩ :: a :: rest

/-- Modelled from the spec: `get_aliveness(&range)`: the consecutive alive /
dead runs covering the range, in order. -/
def get_aliveness (pool : StringPool) (start end_ : Nat) : List AliveSpan :=
  rleBools ((List.range (end_ - start)).map (fun j => pool.alive (start + j)))

theorem rleBools_sum (bs : List Bool) :
    ((rleBools bs).map AliveSpan.len).sum = bs.length := by
  induction bs with
  | nil => rfl
  | cons b bs ih =>
    cases h : rleBools bs with
    | nil =>
      rw [h] at ih
      simp only [List.map_nil, List.sum_nil] at ih
      simp [rleBools, h, ← ih]
    | cons a rest =>
      rw [h] at ih
      by_cases hb : a.alive = b
      · simp only [rleBools, h, if_pos hb]
        simp only [List.map_cons, List.sum_cons, List.length_cons] at ih ⊢
        omega
      · simp only [rleBools, h, if_neg hb]
        simp only [List.map_cons, List.sum_cons, List.length_cons] at ih ⊢
        omega

/-- Source export runs: a `ListOp::Insert` with a `RawStr` payload or an
`Unknown(len)` placeholder, each carrying its insert position. -/
inductive ExpContent where
  | rawStr (s : List Nat) (pos : Nat)
  | unknown (len pos : Nat)
deriving DecidableEq, Repr

/-- The gc loop of `to_export`: walk the aliveness spans keeping the running
offset `sOff` into the extracted string and the running insert position. -/
def to_export_runs (s : List Nat) : List AliveSpan → Nat → Nat → List ExpContent
  | [], _, _ => []
  | a :: rest, sOff, posCur =>
    (if a.alive then ExpContent.rawStr ((s.drop sOff).take a.len) posCur
      else ExpContent.unknown a.len posCur) ::
      to_export_runs s rest (sOff + a.len) (posCur + a.len)

/-- Source `TextContainer::to_export` on one insert content holding a known
slice `[start, end_)` at position `pos`: with gc, split along the aliveness
runs (the final `assert_eq!(start, r.atom_len())` modelled as a check);
without gc, emit the single raw string. -/
def to_export_slice (pool : StringPool) (start end_ pos : Nat) (gc : Bool) :
    Option (List ExpContent) :=
  if gc then
    let spans := get_aliveness pool start end_
    let runs := to_export_runs (get_str pool start end_) spans 0 pos
    if (spans.map AliveSpan.len).sum = end_ - start then some runs else none
  else
    some [.rawStr (get_str pool start end_) pos]

/-- Spec-side description of the gc export: one run per aliveness span, an
alive span as the raw text at its own arena positions, a dead span as
`Unknown(len)`, each successive run's position advancing by the previous
span's length. -/
def spec_runs (pool : StringPool) : List AliveSpan → Nat → Nat → List ExpContent
  | [], _, _ => []
  | a :: rest, sPos, posCur =>
    (if a.alive then ExpContent.rawStr (get_str pool sPos (sPos + a.len)) posCur
      else ExpContent.unknown a.len posCur) ::
      spec_runs pool rest (sPos + a.len) (posCur + a.len)

theorem take_drop_range (n off len : Nat) (h : off + len ≤ n) :
    ((List.range n).drop off).take len = (List.range len).map (off + ·) := by
  have hr : List.range n = List.range off ++ (List.range (n - off)).map (off + ·) := by
    conv_lhs => rw [show n = off + (n - off) by omega]
    exact List.range_add off (n - off)
  rw [hr, List.drop_append_eq_append_drop, List.drop_eq_nil_of_le (by simp),
    List.nil_append, List.length_range, Nat.sub_self, List.drop_zero,
    ← List.map_take, List.take_range, Nat.min_eq_left (by omega)]

theorem to_export_runs_eq (pool : StringPool) (start end_ : Nat)
    (spans : List AliveSpan) :
    ∀ sOff posCur, sOff + (spans.map AliveSpan.len).sum ≤ end_ - start →
      to_export_runs (get_str pool start end_) spans sOff posCur =
        spec_runs pool spans (start + sOff) posCur := by
  induction spans with
  | nil => intro sOff posCur _; rfl
  | cons a rest ih =>
    intro sOff posCur h
    simp only [List.map_cons, List.sum_cons] at h
    rw [to_export_runs, spec_runs]
    congr 1
    · by_cases ha : a.alive
      · rw [if_pos ha, if_pos ha]
        congr 1
        rw [get_str, ← List.map_drop, ← List.map_take,
          take_drop_range _ _ _ (by omega), List.map_map]
        rw [get_str]
        have harg : (start + sOff + a.len) - (start + sOff) = a.len := by omega
        rw [harg]
        congr 1
        funext j
        simp [Function.comp, Nat.add_assoc]
      · rw [if_neg ha, if_neg ha]
    · have := ih (sOff + a.len) (posCur + a.len) (by omega)
      rw [this, Nat.add_assoc]

/-- C6: with gc on, `to_export` replaces a known slice by exactly one run
per aliveness span, in order — alive spans as `RawStr` carrying the span's
text, dead spans as `Unknown(len)` — the insert positions of successive
runs advancing by each span's length, the run lengths summing to the slice
length (so the source's assert holds); with gc off, the slice is emitted as
a single `RawStr` insert. -/
theorem c6_to_export_slice (pool : StringPool) (start end_ pos : Nat) :
    to_export_slice pool start end_ pos true =
        some (spec_runs pool (get_aliveness pool start end_) start pos) ∧
      ((get_aliveness pool start end_).map AliveSpan.len).sum = end_ - start ∧
      to_export_slice pool start end_ pos false =
        some [ExpContent.rawStr (get_str pool start end_) pos] := by
  have hsum : ((get_aliveness pool start end_).map AliveSpan.len).sum =
      end_ - start := by
    rw [get_aliveness, rleBools_sum, List.length_map, List.length_range]
  refine ⟨?_, hsum, rfl⟩
  rw [to_export_slice, if_pos rfl, if_pos hsum]
  have := to_export_runs_eq pool start end_ (get_aliveness pool start end_) 0 pos
    (by omega)
  rw [this]
  rw [Nat.add_zero]

/-- Modelled from the spec: a leaf of the plain-text rope (source
`SliceRange`, `text_content.rs`, not in the given slice): either a known
pool range `[start, end_)` or an unknown (garbage-collected) placeholder of
known length. -/
inductive PSlice where
  | known (start end_ : Nat)
  | unknown (len : Nat)
deriving DecidableEq, Repr

/-- Source `SliceRange::is_unknown`. -/
def PSlice.is_unknown : PSlice → Bool
  | .known _ _ => false
  | .unknown _ => true

/-- Resolve a known leaf against the string pool (unknowns have no text). -/
def resolveSlice (pool : StringPool) : PSlice → List Nat
  | .known s e => get_str pool s e
  | .unknown _ => []

/-- Source `TextContainer::get_value`: concatenate every leaf of the rope
state resolved against the string pool, in order, panicking (`none`) on an
unknown slice. -/
def text_get_value (pool : StringPool) : List PSlice → Option (List Nat)
  | [] => some []
  | .unknown _ :: _ => none
  | .known a b :: rest =>
    (text_get_value pool rest).map (fun s => get_str pool a b ++ s)

/-- C7: `get_value` aborts exactly when some leaf is an unknown placeholder;
otherwise it returns the concatenation of every leaf's pool text in order. -/
theorem c7_get_value (pool : StringPool) (st : List PSlice) :
    (text_get_value pool st = none ↔ ∃ c ∈ st, c.is_unknown = true) ∧
      ((∀ c ∈ st, c.is_unknown = false) →
        text_get_value pool st = some (st.flatMap (resolveSlice pool))) := by
  induction st with
  | nil =>
    refine ⟨?_, ?_⟩
    · simp [text_get_value]
    · intro _
      rfl
  | cons c rest ih =>
    refine ⟨?_, ?_⟩
    · cases c with
      | unknown l =>
        simp [text_get_value, PSlice.is_unknown]
      | known a b =>
        rw [text_get_value]
        constructor
        · intro h
          have : text_get_value pool rest = none := by
            cases hv : text_get_value pool rest with
            | none => rfl
            | some s => rw [hv] at h; exact absurd h (by simp)
          obtain ⟨d, hd, hu⟩ := ih.1.mp this
          exact ⟨d, List.mem_cons_of_mem _ hd, hu⟩
        · rintro ⟨d, hd, hu⟩
          rcases List.mem_cons.mp hd with rfl | hd'
          · simp [PSlice.is_unknown] at hu
          · rw [ih.1.mpr ⟨d, hd', hu⟩]
            rfl
    · intro hall
      cases c with
      | unknown l =>
        exact absurd (hall _ (List.mem_cons_self _ _)) (by simp [PSlice.is_unknown])
      | known a b =>
        rw [text_get_value, ih.2 (fun d hd => hall d (List.mem_cons_of_mem _ hd))]
        simp [resolveSlice]

/-- Concrete run of C7 on a state with no unknown leaves. -/
theorem c7_get_value_witness :
    text_get_value ⟨fun n => n, fun _ => true⟩
        [PSlice.known 0 2, PSlice.known 5 6] = some [0, 1, 5] := by
  have h := (c7_get_value ⟨fun n => n, fun _ => true⟩
      [PSlice.known 0 2, PSlice.known 5 6]).2 (by decide)
  rw [h]
  rfl

/-- Container type tag (source `ContainerType`). -/
inductive CType where
  | text
  | map
  | list
  | tree
deriving DecidableEq, Repr

/-- Source `ContainerID`: a root container (name + type) or a normal
container (creator id + type). -/
inductive ContainerID where
  | root (name : Nat) (ty : CType)
  | normal (peer : PeerID) (counter : Int) (ty : CType)
deriving DecidableEq, Repr

def ContainerID.container_type : ContainerID → CType
  | .root _ ty => ty
  | .normal _ _ ty => ty

def ContainerID.is_root : ContainerID → Bool
  | .root _ _ => true
  | .normal _ _ _ => false

/-- Source `ContainerIdx`: a u32 packing the container type in the high bits
and a dense index; modelled as the (type, index) pair the packing encodes. -/
structure ContainerIdx where
  ty : CType
  index : Nat
deriving DecidableEq, Repr

def ContainerIdx.from_index_and_type (i : Nat) (ty : CType) : ContainerIdx :=
  ⟨ty, i⟩

def ContainerIdx.to_index (c : ContainerIdx) : Nat := c.index

/-- Source `SharedArena` / `InnerSharedArena` registries (locks elided; hash
maps are association lists with insert = shadowing cons; interned values are
opaque payloads modelled as numbers). -/
structure Arena where
  container_idx_to_id : List ContainerID
  container_id_to_idx : List (ContainerID × ContainerIdx)
  parents : List (ContainerIdx × Option ContainerIdx)
  values : List Nat
  root_c_idx : List ContainerIdx
deriving DecidableEq, Repr

/-- Source `SharedArena::register_container`. -/
def register_container (a : Arena) (id : ContainerID) : ContainerIdx × Arena :=
  match flookup a.container_id_to_idx id with
  | some idx => (idx, a)
  | none =>
    let idx := ContainerIdx.from_index_and_type
      a.container_idx_to_id.length id.container_type
    (idx,
      { a with
        container_idx_to_id := a.container_idx_to_id ++ [id]
        container_id_to_idx := (id, idx) :: a.container_id_to_idx
        root_c_idx := if id.is_root then a.root_c_idx ++ [idx] else a.root_c_idx
        parents := if id.is_root then (idx, none) :: a.parents else a.parents })

/-- Source `SharedArena::id_to_idx`. -/
def id_to_idx (a : Arena) (id : ContainerID) : Option ContainerIdx :=
  flookup a.container_id_to_idx id

/-- Source `SharedArena::idx_to_id`. -/
def idx_to_id (a : Arena) (idx : ContainerIdx) : Option ContainerID :=
  a.container_idx_to_id.get? idx.to_index

/-- Source `SharedArena::get_value`. -/
def arena_get_value (a : Arena) (i : Nat) : Option Nat := a.values.get? i

/-- Source `SharedArena::get_values`: Rust `values[start..end_].to_vec()`,
which panics (`none`) unless `start ≤ end_ ≤ values.len()`. -/
def get_values (a : Arena) (start end_ : Nat) : Option (List Nat) :=
  if start ≤ end_ ∧ end_ ≤ a.values.length then
    some ((a.values.drop start).take (end_ - start))
  else none

/-- Source `SharedArena::get_parent`:
`parents.get(&child).copied().flatten()`. -/
def get_parent (a : Arena) (child : ContainerIdx) : Option ContainerIdx :=
  (flookup a.parents child).bind id

/-- The container bijection invariant: every registered id maps to an index
within the dense table carrying the id's type, and every table entry maps
back to its own position. -/
def ArenaInv (a : Arena) : Prop :=
  (∀ id idx, flookup a.container_id_to_idx id = some idx →
      idx.index < a.container_idx_to_id.length ∧
        a.container_idx_to_id.get? idx.index = some id ∧
        idx.ty = id.container_type) ∧
    ∀ i id', a.container_idx_to_id.get? i = some id' →
      flookup a.container_id_to_idx id' = some ⟨id'.container_type, i⟩

/-- C8: `register_container` is idempotent (a second call returns the same
index and leaves the arena unchanged); a fresh id receives the next dense
index (= current table length) tagged with its container type; the
id-to-idx and idx-to-id registries remain mutually inverse after every
call; a freshly registered root id is appended to the root list with parent
recorded as `None`. -/
theorem c8_register_container (a : Arena) (id : ContainerID) :
    (register_container (register_container a id).2 id =
        ((register_container a id).1, (register_container a id).2)) ∧
      (flookup a.container_id_to_idx id = none →
        (register_container a id).1 =
          ⟨id.container_type, a.container_idx_to_id.length⟩) ∧
      (ArenaInv a → ArenaInv (register_container a id).2) ∧
      (id.is_root = true → flookup a.container_id_to_idx id = none →
        (register_container a id).2.root_c_idx =
            a.root_c_idx ++ [⟨id.container_type, a.container_idx_to_id.length⟩] ∧
          flookup (register_container a id).2.parents
              ⟨id.container_type, a.container_idx_to_id.length⟩ = some none) := by
  refine ⟨?_, ?_, ?_, ?_⟩
  · cases h : flookup a.container_id_to_idx id with
    | some idx => simp [register_container, h]
    | none => simp [register_container, h, flookup]
  · intro h
    simp [register_container, h, ContainerIdx.from_index_and_type]
  · intro hInv
    cases h : flookup a.container_id_to_idx id with
    | some idx => simpa [register_container, h] using hInv
    | none =>
      simp only [register_container, h, ContainerIdx.from_index_and_type]
      constructor
      · intro id' idx' hlk
        by_cases hid : id' = id
        · subst hid
          rw [flookup, if_pos rfl] at hlk
          simp only [Option.some.injEq] at hlk
          subst hlk
          refine ⟨by simp, ?_, rfl⟩
          exact List.get?_concat_length _ _
        · rw [flookup, if_neg hid] at hlk
          obtain ⟨h1, h2, h3⟩ := hInv.1 id' idx' hlk
          exact ⟨by simp; omega, by rw [List.get?_append h1]; exact h2, h3⟩
      · intro i id' hget
        by_cases hi : i < a.container_idx_to_id.length
        · rw [List.get?_append hi] at hget
          have hold := hInv.2 i id' hget
          have hne : id' ≠ id := by
            intro he
            subst he
            rw [hold] at h
            exact absurd h (by simp)
          rw [flookup, if_neg hne]
          exact hold
        · rw [List.get?_append_right (by omega)] at hget
          have hi0 : i - a.container_idx_to_id.length = 0 ∧ i ≥ a.container_idx_to_id.length := by
            constructor
            · cases hq : i - a.container_idx_to_id.length with
              | zero => rfl
              | succ k => rw [hq] at hget; simp at hget
            · omega
          rw [hi0.1] at hget
          simp only [List.get?_cons_zero, Option.some.injEq] at hget
          subst hget
          have hieq : i = a.container_idx_to_id.length := by omega
          subst hieq
          rw [flookup, if_pos rfl]
  · intro hroot h
    simp [register_container, h, hroot, flookup,
      ContainerIdx.from_index_and_type]

/-- Concrete run of C8: registering a root id twice in the empty arena. -/
theorem c8_register_container_witness :
    (register_container
        (register_container ⟨[], [], [], [], []⟩ (ContainerID.root 0 CType.text)).2
        (ContainerID.root 0 CType.text) =
      ((register_container ⟨[], [], [], [], []⟩ (ContainerID.root 0 CType.text)).1,
        (register_container ⟨[], [], [], [], []⟩ (ContainerID.root 0 CType.text)).2)) ∧
      ArenaInv
        (register_container ⟨[], [], [], [], []⟩ (ContainerID.root 0 CType.text)).2 := by
  have h := c8_register_container ⟨[], [], [], [], []⟩ (ContainerID.root 0 CType.text)
  refine ⟨h.1, h.2.2.1 ⟨?_, ?_⟩⟩
  · intro id idx hlk
    simp [flookup] at hlk
  · intro i id' hget
    simp at hget

/-- C9 (amended): `id_to_idx` and `idx_to_id` return `None` for unregistered
identities and `get_value` returns `None` for an out-of-range value index;
but `get_values` panics (Rust slice-index panic) for a range not fully
covered by the value table, rather than returning an empty result, and
returns the values only for covered ranges. -/
theorem c9_arena_lookups (a : Arena) :
    (ArenaInv a → ∀ id, id ∉ a.container_idx_to_id → id_to_idx a id = none) ∧
      (∀ c : ContainerIdx, a.container_idx_to_id.length ≤ c.to_index →
        idx_to_id a c = none) ∧
      (∀ i, a.values.length ≤ i → arena_get_value a i = none) ∧
      (∀ start end_, ¬ (start ≤ end_ ∧ end_ ≤ a.values.length) →
        get_values a start end_ = none) ∧
      (∀ start end_, start ≤ end_ → end_ ≤ a.values.length →
        get_values a start end_ =
          some ((a.values.drop start).take (end_ - start))) := by
  refine ⟨?_, ?_, ?_, ?_, ?_⟩
  · intro hInv id hmem
    cases hl : id_to_idx a id with
    | none => rfl
    | some idx =>
      obtain ⟨h1, h2, h3⟩ := hInv.1 id idx hl
      exact absurd (List.get?_mem h2) hmem
  · intro c hc
    rw [idx_to_id]
    exact List.get?_eq_none.mpr hc
  · intro i hi
    rw [arena_get_value]
    exact List.get?_eq_none.mpr hi
  · intro start end_ h
    rw [get_values, if_neg h]
  · intro start end_ h1 h2
    rw [get_values, if_pos ⟨h1, h2⟩]

/-- C9 counterexample: on the empty arena `get_values(0..1)` panics (the
Rust range indexing aborts); the claim says it returns an empty result. -/
theorem c9_claim_false :
    get_values ⟨[], [], [], [], []⟩ 0 1 = none ∧
      get_values ⟨[], [], [], [], []⟩ 0 1 ≠ some [] := by
  decide

/-- Concrete runs of C9 on an arena holding one value. -/
theorem c9_arena_lookups_witness :
    id_to_idx ⟨[], [], [], [5], []⟩ (ContainerID.root 0 CType.text) = none ∧
      idx_to_id ⟨[], [], [], [5], []⟩ ⟨CType.text, 0⟩ = none ∧
      arena_get_value ⟨[], [], [], [5], []⟩ 3 = none ∧
      get_values ⟨[], [], [], [5], []⟩ 0 2 = none ∧
      get_values ⟨[], [], [], [5], []⟩ 0 1 = some [5] := by
  have h := c9_arena_lookups ⟨[], [], [], [5], []⟩
  refine ⟨h.1 ⟨?_, ?_⟩ _ (by decide), h.2.1 ⟨CType.text, 0⟩ (by decide),
    h.2.2.1 3 (by decide), h.2.2.2.1 0 2 (by decide),
    h.2.2.2.2 0 1 (by decide) (by decide)⟩
  · intro id idx hlk
    simp [flookup] at hlk
  · intro i id' hget
    simp at hget

/-- C10: `get_parent` returns `None` exactly when the child has no entry in
the parents map or is recorded with parent `None` (a root), so the public
interface cannot distinguish an unregistered container from a root. -/
theorem c10_get_parent (a : Arena) (c : ContainerIdx) :
    get_parent a c = none ↔
      (flookup a.parents c = none ∨ flookup a.parents c = some none) := by
  rw [get_parent]
  cases h : flookup a.parents c with
  | none => simp
  | some o => cases o <;> simp
